import Mathlib

/-!
Verification development for a conservative mark-sweep garbage-collecting
allocator and its accompanying build tool.

The visible sources of the repository are an aggregation unit (`extra/gc.c`, a
list of `#include` directives for the translation units of the collector, which
are not part of the visible sources) and the complete build tool
`tools/if_not_there.c`.  The build tool is embedded directly from its
source.  The collector engine (mark phase, sweep, allocator, finalization)
is modelled from the specification, since its translation units are not
among the visible sources.
-/

namespace IfNotThere

/-- Environment oracle for the `if_not_there` build tool: whether
`fopen(fname, "rb")` succeeds, whether `fopen(fname, "r")` succeeds, and
whether `execvp(cmd, ...)` succeeds in replacing the process. -/
structure FileSys where
  opensBinary : String → Bool
  opensText : String → Bool
  execSucceeds : String → Bool

/-- Outcome of running the process: either it exits with a code, or
`execvp` replaced the process image with the given command and argument
vector. -/
inductive ProcResult where
  | exited (code : Nat)
  | replaced (cmd : String) (args : List String)
  deriving DecidableEq, Repr

/-- Observable behaviour of one invocation of `main` in
`tools/if_not_there.c`: the process result, whether the usage message went
to stderr, whether the `^^^^Starting command^^^^` banner went to stdout,
how many `fopen` calls were made, how many opened files were left
unclosed, and the `execvp` invocation (command and argument vector) if
one was made. -/
structure MainOutcome where
  result : ProcResult
  usagePrinted : Bool
  bannerPrinted : Bool
  fopenCalls : Nat
  unclosedFiles : Nat
  execCalled : Option (String × List String)
  deriving DecidableEq, Repr

/-- Shallow embedding of `main` from `tools/if_not_there.c` (the standard,
non-DJGPP build).  `argv` is the full argument vector including the
program name, so `argv.length` plays the role of `argc`.

The source control flow: if `argc < 2 || argc > 3`, print usage to stderr
and return 1; otherwise try `fopen(argv[1], "rb")` and then
`fopen(argv[1], "r")`, and on either success `fclose` the file and return
0; otherwise print the banner, return 2 when `argc == 2`, else
`execvp(argv[2], argv + 2)` and `exit(1)` if `execvp` returns. -/
def mainRun (fs : FileSys) (argv : List String) : MainOutcome :=
  if argv.length < 2 ∨ argv.length > 3 then
    { result := .exited 1, usagePrinted := true, bannerPrinted := false,
      fopenCalls := 0, unclosedFiles := 0, execCalled := none }
  else
    let fname := (argv[1]?).getD ""
    if fs.opensBinary fname then
      { result := .exited 0, usagePrinted := false, bannerPrinted := false,
        fopenCalls := 1, unclosedFiles := 0, execCalled := none }
    else if fs.opensText fname then
      { result := .exited 0, usagePrinted := false, bannerPrinted := false,
        fopenCalls := 2, unclosedFiles := 0, execCalled := none }
    else if argv.length = 2 then
      { result := .exited 2, usagePrinted := false, bannerPrinted := true,
        fopenCalls := 2, unclosedFiles := 0, execCalled := none }
    else
      let cmd := (argv[2]?).getD ""
      { result := if fs.execSucceeds cmd then .replaced cmd (argv.drop 2)
                  else .exited 1,
        usagePrinted := false, bannerPrinted := true,
        fopenCalls := 2, unclosedFiles := 0,
        execCalled := some (cmd, argv.drop 2) }

end IfNotThere

namespace IfNotThere

/-- Claim C8: with `argc < 2` or `argc > 3`, `main` prints the usage
message to stderr and returns exit code 1, opening no file and executing
no command. -/
theorem usage_on_bad_argc (fs : FileSys) (argv : List String)
    (h : argv.length < 2 ∨ argv.length > 3) :
    (mainRun fs argv).result = .exited 1 ∧
    (mainRun fs argv).usagePrinted = true ∧
    (mainRun fs argv).fopenCalls = 0 ∧
    (mainRun fs argv).execCalled = none := by
  simp only [mainRun, if_pos h]
  exact ⟨trivial, trivial, trivial, trivial⟩

/-- Witness for C8: a concrete four-element argument vector triggers the
usage path. -/
theorem usage_on_bad_argc_witness :
    let fs : FileSys :=
      { opensBinary := fun _ => true, opensText := fun _ => true,
        execSucceeds := fun _ => true }
    let argv := ["prog", "a", "b", "c"]
    (mainRun fs argv).result = .exited 1 ∧
    (mainRun fs argv).usagePrinted = true ∧
    (mainRun fs argv).fopenCalls = 0 ∧
    (mainRun fs argv).execCalled = none :=
  usage_on_bad_argc _ _ (by decide)

/-- Claim C9: with `argc` equal to 2 or 3 and `argv[1]` openable in binary
or text mode, `main` closes the opened file and returns exit code 0,
without printing the banner and without executing any command. -/
theorem exit_zero_when_file_exists (fs : FileSys) (argv : List String)
    (hlen : argv.length = 2 ∨ argv.length = 3)
    (hopen : fs.opensBinary ((argv[1]?).getD "") = true ∨
             fs.opensText ((argv[1]?).getD "") = true) :
    (mainRun fs argv).result = .exited 0 ∧
    (mainRun fs argv).unclosedFiles = 0 ∧
    (mainRun fs argv).bannerPrinted = false ∧
    (mainRun fs argv).execCalled = none := by
  have hargc : ¬ (argv.length < 2 ∨ argv.length > 3) := by omega
  simp only [mainRun, if_neg hargc]
  rcases hopen with hb | ht
  · simp only [hb, if_pos trivial, if_true]
    exact ⟨trivial, trivial, trivial, trivial⟩
  · by_cases hb : fs.opensBinary ((argv[1]?).getD "") = true
    · simp only [hb, if_true]
      exact ⟨trivial, trivial, trivial, trivial⟩
    · simp [hb, ht]

/-- Witness for C9: a concrete two-element argument vector whose file
opens in text mode only. -/
theorem exit_zero_when_file_exists_witness :
    let fs : FileSys :=
      { opensBinary := fun _ => false, opensText := fun _ => true,
        execSucceeds := fun _ => false }
    let argv := ["prog", "somefile"]
    (mainRun fs argv).result = .exited 0 ∧
    (mainRun fs argv).unclosedFiles = 0 ∧
    (mainRun fs argv).bannerPrinted = false ∧
    (mainRun fs argv).execCalled = none :=
  exit_zero_when_file_exists _ _ (by decide) (by decide)

/-- Claim C10: with `argc` equal to 2 or 3 and `argv[1]` not openable,
`main` prints the starting-command banner; with `argc = 2` it returns exit
code 2; with `argc = 3` it calls `execvp` on `argv[2]` with argument
vector `argv + 2`, and exits with code 1 exactly when `execvp` fails to
replace the process. -/
theorem banner_and_exec_when_file_missing (fs : FileSys) (argv : List String)
    (hlen : argv.length = 2 ∨ argv.length = 3)
    (hb : fs.opensBinary ((argv[1]?).getD "") = false)
    (ht : fs.opensText ((argv[1]?).getD "") = false) :
    (mainRun fs argv).bannerPrinted = true ∧
    (argv.length = 2 →
      (mainRun fs argv).result = .exited 2 ∧
      (mainRun fs argv).execCalled = none) ∧
    (argv.length = 3 →
      (mainRun fs argv).execCalled =
        some ((argv[2]?).getD "", argv.drop 2) ∧
      ((mainRun fs argv).result = .exited 1 ↔
        fs.execSucceeds ((argv[2]?).getD "") = false)) := by
  have hargc : ¬ (argv.length < 2 ∨ argv.length > 3) := by omega
  simp only [mainRun, if_neg hargc, hb, ht, Bool.false_eq_true, if_false]
  rcases hlen with h2 | h3
  · simp only [h2, if_true]
    exact ⟨trivial, fun _ => ⟨trivial, trivial⟩, fun h => absurd h (by omega)⟩
  · have hne : ¬ argv.length = 2 := by omega
    simp only [hne, if_false]
    refine ⟨trivial, fun h => h.elim, fun _ => ⟨trivial, ?_⟩⟩
    by_cases hex : fs.execSucceeds ((argv[2]?).getD "") = true
    · simp [hex]
    · simp only [Bool.not_eq_true] at hex
      simp [hex]

/-- Witness for C10: a concrete three-element argument vector with an
unopenable file and a failing `execvp`. -/
theorem banner_and_exec_when_file_missing_witness :
    let fs : FileSys :=
      { opensBinary := fun _ => false, opensText := fun _ => false,
        execSucceeds := fun _ => false }
    let argv := ["prog", "missing", "cmd"]
    (mainRun fs argv).bannerPrinted = true ∧
    (argv.length = 2 →
      (mainRun fs argv).result = .exited 2 ∧
      (mainRun fs argv).execCalled = none) ∧
    (argv.length = 3 →
      (mainRun fs argv).execCalled =
        some ((argv[2]?).getD "", argv.drop 2) ∧
      ((mainRun fs argv).result = .exited 1 ↔
        fs.execSucceeds ((argv[2]?).getD "") = false)) :=
  banner_and_exec_when_file_missing _ _ (by decide) (by decide) (by decide)

end IfNotThere

namespace GC

/-- Modelled from the spec: the translation units of the collector (`mark.c`,
`alloc.c`, `reclaim.c`, `finalize.c`, ...) are referenced from the
aggregation unit `extra/gc.c` but are not among the visible sources, so
the heap is modelled abstractly.  `objects` is the set of valid object
starts, `marked` the persistent mark bits, `fields` the words stored in
each object, `roots` the conservative root words, `classify` the
header-index lookup resolving a pointer-like word to the start of the
object containing it (`none` for non-heap words), `free` the chunks on
free lists, and `finalizable` the objects with registered finalizers. -/
structure GCState where
  objects : Finset Nat
  marked : Finset Nat
  fields : Nat → List Nat
  roots : List Nat
  classify : Nat → Option Nat
  free : Finset Nat
  finalizable : Finset Nat

/-- Modelled from the spec: the work-list-driven mark loop of the Mark
Engine, with an explicit fuel bound standing for the finitely many loop
iterations.  Pop an object; skip it if already marked or not a valid
object start; else mark it and push its pointer-like successors.  Returns
`none` when the fuel is exhausted before the work-list empties. -/
def markFuel (objs : Finset Nat) (succ : Nat → List Nat) :
    Nat → List Nat → Finset Nat → Option (Finset Nat)
  | _, [], m => some m
  | 0, _ :: _, _ => none
  | n + 1, o :: rest, m =>
    if o ∈ m ∨ o ∉ objs then markFuel objs succ n rest m
    else markFuel objs succ n (succ o ++ rest) (insert o m)

/-- The largest number of pointer-like successors of any valid object. -/
def maxSuccs (objs : Finset Nat) (succ : Nat → List Nat) : Nat :=
  objs.sup fun o => (succ o).length

/-- Fuel that always suffices for the mark loop: one iteration per
work-list entry, plus, for every not-yet-marked object, one iteration for
the pop that marks it and one per successor it pushes. -/
def fuelFor (objs : Finset Nat) (succ : Nat → List Nat)
    (wl : List Nat) (m : Finset Nat) : Nat :=
  wl.length + (objs \ m).card * (1 + maxSuccs objs succ)

/-- The mark loop run to completion on its sufficient fuel. -/
def runMark (objs : Finset Nat) (succ : Nat → List Nat)
    (wl : List Nat) (m : Finset Nat) : Finset Nat :=
  (markFuel objs succ (fuelFor objs succ wl m) wl m).getD m

/-- The sequence of mark events of one run of the mark loop: the objects
whose mark bit the loop sets, in order. -/
def markTrace (objs : Finset Nat) (succ : Nat → List Nat) :
    Nat → List Nat → Finset Nat → List Nat
  | _, [], _ => []
  | 0, _ :: _, _ => []
  | n + 1, o :: rest, m =>
    if o ∈ m ∨ o ∉ objs then markTrace objs succ n rest m
    else o :: markTrace objs succ n (succ o ++ rest) (insert o m)

/-- Reachability from a seed work-list: the least set containing every
valid seed and closed under pointer-like successors that are valid object
starts. -/
inductive ReachSet (objs : Finset Nat) (succ : Nat → List Nat)
    (seeds : List Nat) : Nat → Prop
  | seed (o : Nat) (ho : o ∈ seeds) (hobj : o ∈ objs) :
      ReachSet objs succ seeds o
  | step (a s : Nat) (ha : ReachSet objs succ seeds a) (hs : s ∈ succ a)
      (hobj : s ∈ objs) : ReachSet objs succ seeds s

theorem markFuel_nil (objs : Finset Nat) (succ : Nat → List Nat)
    (n : Nat) (m : Finset Nat) : markFuel objs succ n [] m = some m := by
  cases n <;> rfl

theorem markFuel_zero_cons (objs : Finset Nat) (succ : Nat → List Nat)
    (o : Nat) (rest : List Nat) (m : Finset Nat) :
    markFuel objs succ 0 (o :: rest) m = none := rfl

theorem markFuel_succ_cons (objs : Finset Nat) (succ : Nat → List Nat)
    (n o : Nat) (rest : List Nat) (m : Finset Nat) :
    markFuel objs succ (n + 1) (o :: rest) m =
      if o ∈ m ∨ o ∉ objs then markFuel objs succ n rest m
      else markFuel objs succ n (succ o ++ rest) (insert o m) := rfl

theorem markTrace_nil (objs : Finset Nat) (succ : Nat → List Nat)
    (n : Nat) (m : Finset Nat) : markTrace objs succ n [] m = [] := by
  cases n <;> rfl

theorem markTrace_succ_cons (objs : Finset Nat) (succ : Nat → List Nat)
    (n o : Nat) (rest : List Nat) (m : Finset Nat) :
    markTrace objs succ (n + 1) (o :: rest) m =
      if o ∈ m ∨ o ∉ objs then markTrace objs succ n rest m
      else o :: markTrace objs succ n (succ o ++ rest) (insert o m) := rfl

end GC

namespace GC

theorem fuel_arith0 {R P : Nat} (h : R + 1 + P ≤ 0) : False := by omega

theorem fuel_arith1 {R P n : Nat} (h : R + 1 + P ≤ n + 1) : R + P ≤ n := by omega

theorem fuel_arith {L R Q P S n : Nat} (h1 : P = Q + (1 + S)) (h2 : L ≤ S)
    (h3 : R + 1 + P ≤ n + 1) : L + R + Q ≤ n := by omega

theorem markFuel_subset (objs : Finset Nat) (succ : Nat → List Nat) :
    ∀ (n : Nat) (wl : List Nat) (m M : Finset Nat),
      markFuel objs succ n wl m = some M → m ⊆ M := by
  intro n
  induction n with
  | zero =>
    intro wl m M h
    cases wl with
    | nil =>
      rw [markFuel_nil] at h
      simp only [Option.some.injEq] at h
      subst h
      exact Finset.Subset.refl m
    | cons o rest => simp [markFuel_zero_cons] at h
  | succ n ih =>
    intro wl m M h
    cases wl with
    | nil =>
      rw [markFuel_nil] at h
      simp only [Option.some.injEq] at h
      subst h
      exact Finset.Subset.refl m
    | cons o rest =>
      rw [markFuel_succ_cons] at h
      by_cases hc : o ∈ m ∨ o ∉ objs
      · rw [if_pos hc] at h
        exact ih rest m M h
      · rw [if_neg hc] at h
        exact (Finset.subset_insert o m).trans (ih _ _ _ h)

theorem markFuel_mem (objs : Finset Nat) (succ : Nat → List Nat) :
    ∀ (n : Nat) (wl : List Nat) (m M : Finset Nat) (o : Nat),
      markFuel objs succ n wl m = some M → o ∈ wl → o ∈ objs → o ∈ M := by
  intro n
  induction n with
  | zero =>
    intro wl m M o h ho hobj
    cases wl with
    | nil => simp at ho
    | cons o2 rest => simp [markFuel_zero_cons] at h
  | succ n ih =>
    intro wl m M o h ho hobj
    cases wl with
    | nil => simp at ho
    | cons o2 rest =>
      rw [markFuel_succ_cons] at h
      rcases List.mem_cons.mp ho with rfl | hrest
      · by_cases hc : o ∈ m ∨ o ∉ objs
        · rw [if_pos hc] at h
          have hom : o ∈ m := hc.resolve_right (fun hn => hn hobj)
          exact markFuel_subset objs succ n rest m M h hom
        · rw [if_neg hc] at h
          exact markFuel_subset objs succ n _ _ M h (Finset.mem_insert_self o m)
      · by_cases hc : o2 ∈ m ∨ o2 ∉ objs
        · rw [if_pos hc] at h
          exact ih rest m M o h hrest hobj
        · rw [if_neg hc] at h
          exact ih _ _ M o h (List.mem_append_right _ hrest) hobj

theorem markFuel_sound (objs : Finset Nat) (succ : Nat → List Nat)
    (seeds : List Nat) :
    ∀ (n : Nat) (wl : List Nat) (m M : Finset Nat),
      markFuel objs succ n wl m = some M →
      (∀ x ∈ m, ReachSet objs succ seeds x) →
      (∀ x ∈ wl, x ∈ objs → ReachSet objs succ seeds x) →
      ∀ x ∈ M, ReachSet objs succ seeds x := by
  intro n
  induction n with
  | zero =>
    intro wl m M h hm hwl x hx
    cases wl with
    | nil =>
      rw [markFuel_nil] at h
      simp only [Option.some.injEq] at h
      subst h
      exact hm x hx
    | cons o rest => simp [markFuel_zero_cons] at h
  | succ n ih =>
    intro wl m M h hm hwl x hx
    cases wl with
    | nil =>
      rw [markFuel_nil] at h
      simp only [Option.some.injEq] at h
      subst h
      exact hm x hx
    | cons o rest =>
      rw [markFuel_succ_cons] at h
      by_cases hc : o ∈ m ∨ o ∉ objs
      · rw [if_pos hc] at h
        exact ih rest m M h hm
          (fun y hy => hwl y (List.mem_cons_of_mem o hy)) x hx
      · rw [if_neg hc] at h
        push_neg at hc
        obtain ⟨hom, hobj⟩ := hc
        have hro : ReachSet objs succ seeds o :=
          hwl o (List.mem_cons_self o rest) hobj
        refine ih _ _ M h ?_ ?_ x hx
        · intro y hy
          rcases Finset.mem_insert.mp hy with rfl | hym
          · exact hro
          · exact hm y hym
        · intro y hy hyobj
          rcases List.mem_append.mp hy with hys | hyr
          · exact ReachSet.step o y hro hys hyobj
          · exact hwl y (List.mem_cons_of_mem o hyr) hyobj

theorem markFuel_closed (objs : Finset Nat) (succ : Nat → List Nat) :
    ∀ (n : Nat) (wl : List Nat) (m M : Finset Nat),
      markFuel objs succ n wl m = some M →
      (∀ x ∈ m, ∀ s ∈ succ x, s ∈ objs → s ∈ m ∨ s ∈ wl) →
      ∀ x ∈ M, ∀ s ∈ succ x, s ∈ objs → s ∈ M := by
  intro n
  induction n with
  | zero =>
    intro wl m M h hinv x hx s hs hsobj
    cases wl with
    | nil =>
      rw [markFuel_nil] at h
      simp only [Option.some.injEq] at h
      subst h
      rcases hinv x hx s hs hsobj with hsm | hsw
      · exact hsm
      · simp at hsw
    | cons o rest => simp [markFuel_zero_cons] at h
  | succ n ih =>
    intro wl m M h hinv x hx s hs hsobj
    cases wl with
    | nil =>
      rw [markFuel_nil] at h
      simp only [Option.some.injEq] at h
      subst h
      rcases hinv x hx s hs hsobj with hsm | hsw
      · exact hsm
      · simp at hsw
    | cons o rest =>
      rw [markFuel_succ_cons] at h
      by_cases hc : o ∈ m ∨ o ∉ objs
      · rw [if_pos hc] at h
        refine ih rest m M h ?_ x hx s hs hsobj
        intro y hy t ht htobj
        rcases hinv y hy t ht htobj with htm | htw
        · exact Or.inl htm
        · rcases List.mem_cons.mp htw with rfl | htr
          · rcases hc with hom | hno
            · exact Or.inl hom
            · exact absurd htobj hno
          · exact Or.inr htr
      · rw [if_neg hc] at h
        push_neg at hc
        obtain ⟨hom, hobj⟩ := hc
        refine ih _ _ M h ?_ x hx s hs hsobj
        intro y hy t ht htobj
        rcases Finset.mem_insert.mp hy with rfl | hym
        · exact Or.inr (List.mem_append_left rest ht)
        · rcases hinv y hym t ht htobj with htm | htw
          · exact Or.inl (Finset.mem_insert_of_mem htm)
          · rcases List.mem_cons.mp htw with rfl | htr
            · exact Or.inl (Finset.mem_insert_self t m)
            · exact Or.inr (List.mem_append_right _ htr)

end GC

namespace GC

theorem markFuel_isSome (objs : Finset Nat) (succ : Nat → List Nat) :
    ∀ (n : Nat) (wl : List Nat) (m : Finset Nat),
      fuelFor objs succ wl m ≤ n →
      ∃ M, markFuel objs succ n wl m = some M := by
  intro n
  induction n with
  | zero =>
    intro wl m h
    cases wl with
    | nil => exact ⟨m, markFuel_nil objs succ 0 m⟩
    | cons o rest =>
      exfalso
      simp only [fuelFor, List.length_cons] at h
      exact fuel_arith0 h
  | succ n ih =>
    intro wl m h
    cases wl with
    | nil => exact ⟨m, markFuel_nil objs succ (n + 1) m⟩
    | cons o rest =>
      rw [markFuel_succ_cons]
      by_cases hc : o ∈ m ∨ o ∉ objs
      · rw [if_pos hc]
        apply ih
        simp only [fuelFor, List.length_cons] at h ⊢
        exact fuel_arith1 h
      · rw [if_neg hc]
        push_neg at hc
        obtain ⟨hom, hobj⟩ := hc
        apply ih
        have hmem : o ∈ objs \ m := Finset.mem_sdiff.mpr ⟨hobj, hom⟩
        have hdiff : objs \ insert o m = (objs \ m).erase o := by
          ext x
          simp only [Finset.mem_sdiff, Finset.mem_erase, Finset.mem_insert]
          tauto
        have hcard : (objs \ insert o m).card = (objs \ m).card - 1 := by
          rw [hdiff, Finset.card_erase_of_mem hmem]
        have hpos : 1 ≤ (objs \ m).card := Finset.card_pos.mpr ⟨o, hmem⟩
        have hlen : (succ o).length ≤ maxSuccs objs succ :=
          Finset.le_sup (f := fun o2 => (succ o2).length) hobj
        have hsplit : (objs \ m).card * (1 + maxSuccs objs succ)
            = ((objs \ m).card - 1) * (1 + maxSuccs objs succ)
              + (1 + maxSuccs objs succ) := by
          have hC : (objs \ m).card = ((objs \ m).card - 1) + 1 := by omega
          calc (objs \ m).card * (1 + maxSuccs objs succ)
              = (((objs \ m).card - 1) + 1) * (1 + maxSuccs objs succ) := by
                rw [← hC]
            _ = ((objs \ m).card - 1) * (1 + maxSuccs objs succ)
                  + (1 + maxSuccs objs succ) := by
                rw [Nat.succ_mul]
        simp only [fuelFor, List.length_cons, List.length_append] at h ⊢
        rw [hcard]
        exact fuel_arith hsplit hlen h

theorem runMark_eq_some (objs : Finset Nat) (succ : Nat → List Nat)
    (wl : List Nat) (m : Finset Nat) :
    markFuel objs succ (fuelFor objs succ wl m) wl m
      = some (runMark objs succ wl m) := by
  obtain ⟨M, hM⟩ :=
    markFuel_isSome objs succ (fuelFor objs succ wl m) wl m (le_refl _)
  rw [runMark, hM]
  rfl

theorem ReachSet.mem_objs {objs : Finset Nat} {succ : Nat → List Nat}
    {seeds : List Nat} {o : Nat} (h : ReachSet objs succ seeds o) :
    o ∈ objs := by
  cases h with
  | seed o ho hobj => exact hobj
  | step a s ha hs hobj => exact hobj

theorem runMark_iff (objs : Finset Nat) (succ : Nat → List Nat)
    (wl : List Nat) (o : Nat) :
    o ∈ runMark objs succ wl ∅ ↔ ReachSet objs succ wl o := by
  constructor
  · intro h
    exact markFuel_sound objs succ wl _ wl ∅ _ (runMark_eq_some objs succ wl ∅)
      (fun x hx => absurd hx (Finset.not_mem_empty x))
      (fun x hx hobj => ReachSet.seed x hx hobj) o h
  · intro h
    induction h with
    | seed o2 ho hobj =>
      exact markFuel_mem objs succ _ wl ∅ _ o2
        (runMark_eq_some objs succ wl ∅) ho hobj
    | step a s ha hs hobj ih =>
      exact markFuel_closed objs succ _ wl ∅ _ (runMark_eq_some objs succ wl ∅)
        (fun x hx => absurd hx (Finset.not_mem_empty x)) a ih s hs hobj

theorem ReachSet.mono {objs objs2 : Finset Nat} {succ : Nat → List Nat}
    {seeds : List Nat} {o : Nat} (hsub : objs2 ⊆ objs)
    (h : ReachSet objs2 succ seeds o) : ReachSet objs succ seeds o := by
  induction h with
  | seed o2 ho hobj => exact ReachSet.seed o2 ho (hsub hobj)
  | step a s ha hs hobj ih => exact ReachSet.step a s ih hs (hsub hobj)

theorem ReachSet.restrict {objs M : Finset Nat} {succ : Nat → List Nat}
    {seeds : List Nat} {o : Nat}
    (hM : ∀ x, ReachSet objs succ seeds x → x ∈ M)
    (h : ReachSet objs succ seeds o) : ReachSet (objs ∩ M) succ seeds o := by
  induction h with
  | seed o2 ho hobj =>
    exact ReachSet.seed o2 ho
      (Finset.mem_inter.mpr ⟨hobj, hM o2 (ReachSet.seed o2 ho hobj)⟩)
  | step a s ha hs hobj ih =>
    exact ReachSet.step a s ih hs
      (Finset.mem_inter.mpr ⟨hobj, hM s (ReachSet.step a s ha hs hobj)⟩)

theorem markTrace_nodup (objs : Finset Nat) (succ : Nat → List Nat) :
    ∀ (n : Nat) (wl : List Nat) (m : Finset Nat),
      (markTrace objs succ n wl m).Nodup ∧
      ∀ o ∈ markTrace objs succ n wl m, o ∉ m := by
  intro n
  induction n with
  | zero =>
    intro wl m
    cases wl with
    | nil => simp [markTrace_nil]
    | cons o rest => simp [markTrace]
  | succ n ih =>
    intro wl m
    cases wl with
    | nil => simp [markTrace_nil]
    | cons o rest =>
      rw [markTrace_succ_cons]
      by_cases hc : o ∈ m ∨ o ∉ objs
      · rw [if_pos hc]
        exact ih rest m
      · rw [if_neg hc]
        push_neg at hc
        obtain ⟨hom, hobj⟩ := hc
        obtain ⟨hnd, hnotin⟩ := ih (succ o ++ rest) (insert o m)
        constructor
        · exact List.nodup_cons.mpr
            ⟨fun hmem => (hnotin o hmem) (Finset.mem_insert_self o m), hnd⟩
        · intro x hx
          rcases List.mem_cons.mp hx with rfl | htail
          · exact hom
          · exact fun hxm => hnotin x htail (Finset.mem_insert_of_mem hxm)

end GC

namespace GC

/-- The pointer-like successors of an object: each word stored in the
object that `classify` resolves to a valid object start. -/
def succsOf (st : GCState) : Nat → List Nat :=
  fun o => (st.fields o).filterMap st.classify

/-- The root seeds of a collection: each root word that `classify`
resolves to a valid object start. -/
def rootSeeds (st : GCState) : List Nat :=
  st.roots.filterMap st.classify

/-- Reachability from the root set under the conservative interpretation
of pointer-like words, as resolved by `classify`. -/
def Reaches (st : GCState) : Nat → Prop :=
  ReachSet st.objects (succsOf st) (rootSeeds st)

/-- Modelled from the spec: clearing every mark bit, the first step of a
collection. -/
def clearMarks (st : GCState) : GCState :=
  { st with marked := ∅ }

/-- The set of objects the mark phase of a collection marks: the mark
loop run from the root seeds with all mark bits cleared. -/
def markOf (st : GCState) : Finset Nat :=
  runMark st.objects (succsOf st) (rootSeeds st) ∅

/-- The chunks a collection reclaims: objects left unmarked by the mark
phase. -/
def reclaimed (st : GCState) : Finset Nat :=
  st.objects \ markOf st

/-- Modelled from the spec: one stop-the-world mark-sweep collection
(`forceCollection`).  Marks are cleared, the mark loop runs from the
root seeds, and the sweep returns every unmarked object to the free
lists. -/
def collect (st : GCState) : GCState :=
  let st0 := clearMarks st
  let M := runMark st0.objects (succsOf st0) (rootSeeds st0) st0.marked
  { st0 with
    marked := M
    objects := st0.objects ∩ M
    free := st0.free ∪ (st0.objects \ M) }

/-- The sequence of mark events of the mark phase of a collection,
starting from the cleared mark bits. -/
def collectTrace (st : GCState) : List Nat :=
  markTrace st.objects (succsOf st)
    (fuelFor st.objects (succsOf st) (rootSeeds st) (clearMarks st).marked)
    (rootSeeds st) (clearMarks st).marked

theorem collect_objects (st : GCState) :
    (collect st).objects = st.objects ∩ markOf st := rfl

theorem collect_marked (st : GCState) :
    (collect st).marked = markOf st := rfl

theorem collect_free (st : GCState) :
    (collect st).free = st.free ∪ reclaimed st := rfl

theorem markOf_iff (st : GCState) (o : Nat) :
    o ∈ markOf st ↔ Reaches st o :=
  runMark_iff st.objects (succsOf st) (rootSeeds st) o

/-- Claim C1: every object reachable from the root set at the start of a
collection survives that collection: it is still an allocated object
afterwards and is not among the chunks the sweep returns to the free
lists. -/
theorem reachable_objects_survive (st : GCState) (o : Nat)
    (h : Reaches st o) :
    o ∈ (collect st).objects ∧ o ∉ reclaimed st := by
  have hM : o ∈ markOf st := (markOf_iff st o).mpr h
  have hobj : o ∈ st.objects := ReachSet.mem_objs h
  constructor
  · rw [collect_objects]
    exact Finset.mem_inter.mpr ⟨hobj, hM⟩
  · intro hr
    exact (Finset.mem_sdiff.mp hr).2 hM

/-- A small concrete heap: roots reach object 1, object 1 points at
object 2, and object 3 is garbage. -/
def demoHeap : GCState where
  objects := {1, 2, 3}
  marked := {3}
  fields := fun o => if o = 1 then [2] else []
  roots := [1]
  classify := fun w => if w = 1 ∨ w = 2 ∨ w = 3 then some w else none
  free := ∅
  finalizable := ∅

/-- Witness for C1: on the concrete heap, object 2 is reachable through
object 1 and survives the collection. -/
theorem reachable_objects_survive_witness :
    Reaches demoHeap 2 ∧
    2 ∈ (collect demoHeap).objects ∧ 2 ∉ reclaimed demoHeap :=
  have h : Reaches demoHeap 2 :=
    ReachSet.step 1 2 (ReachSet.seed 1 (by decide) (by decide))
      (by decide) (by decide)
  ⟨h, reachable_objects_survive demoHeap 2 h⟩

/-- Claim C2: the mark phase terminates (the mark loop empties its
work-list within the computed fuel), and the set of marked objects is
exactly the set reachable from the root set under the conservative
interpretation of pointer-like words as resolved by `classify`. -/
theorem mark_terminates_and_exact (st : GCState) :
    (∃ n M, markFuel st.objects (succsOf st) n (rootSeeds st) ∅ = some M) ∧
    ∀ o, o ∈ markOf st ↔ Reaches st o :=
  ⟨⟨fuelFor st.objects (succsOf st) (rootSeeds st) ∅, markOf st,
    runMark_eq_some st.objects (succsOf st) (rootSeeds st) ∅⟩,
   fun o => markOf_iff st o⟩

/-- Claim C3: a collection starts with every mark bit cleared, and its
mark phase sets the mark bit of each object at most once: the sequence of
mark events contains no object twice. -/
theorem marks_cleared_and_set_once (st : GCState) :
    (clearMarks st).marked = ∅ ∧ (collectTrace st).Nodup :=
  ⟨rfl,
   (markTrace_nodup st.objects (succsOf st)
     (fuelFor st.objects (succsOf st) (rootSeeds st) (clearMarks st).marked)
     (rootSeeds st) (clearMarks st).marked).1⟩

end GC

namespace GC

theorem reaches_collect_iff (st : GCState) (o : Nat) :
    Reaches (collect st) o ↔ Reaches st o := by
  constructor
  · intro h
    have h2 : ReachSet (st.objects ∩ markOf st) (succsOf st) (rootSeeds st) o := h
    exact ReachSet.mono Finset.inter_subset_left h2
  · intro h
    have h2 : ReachSet (st.objects ∩ markOf st) (succsOf st) (rootSeeds st) o :=
      ReachSet.restrict (fun x hx => (markOf_iff st x).mpr hx) h
    exact h2

theorem markOf_collect (st : GCState) : markOf (collect st) = markOf st := by
  ext x
  rw [markOf_iff, markOf_iff, reaches_collect_iff]

/-- Claim C6: collections are idempotent.  Running `forceCollection` twice
with no intervening mutator activity reclaims nothing further: the heap
state after the second collection equals the state after the first. -/
theorem collect_idempotent (st : GCState) : collect (collect st) = collect st := by
  have hM := markOf_collect st
  have hrecl : reclaimed (collect st) = ∅ := by
    rw [reclaimed, collect_objects, hM]
    exact Finset.sdiff_eq_empty_iff_subset.mpr Finset.inter_subset_right
  have hobj : (collect (collect st)).objects = (collect st).objects := by
    rw [collect_objects (collect st), hM, collect_objects st,
      Finset.inter_assoc, Finset.inter_self]
  have hmarked : (collect (collect st)).marked = (collect st).marked := by
    rw [collect_marked (collect st), hM, collect_marked st]
  have hfree : (collect (collect st)).free = (collect st).free := by
    rw [collect_free (collect st), hrecl, Finset.union_empty]
  cases st with
  | mk objects marked fields roots classify free finalizable =>
    cases hcc : collect (collect (GCState.mk objects marked fields roots classify free finalizable)) with
    | mk o2 m2 f2 r2 c2 fr2 fin2 =>
      cases hc : collect (GCState.mk objects marked fields roots classify free finalizable) with
      | mk o1 m1 f1 r1 c1 fr1 fin1 =>
        rw [hc] at hcc
        simp only [GCState.mk.injEq]
        rw [hc, hcc] at hobj hmarked hfree
        refine ⟨hobj, hmarked, ?_, ?_, ?_, hfree, ?_⟩
        · have : (collect (GCState.mk o1 m1 f1 r1 c1 fr1 fin1)).fields = f1 := rfl
          rw [hcc] at this
          exact this
        · have : (collect (GCState.mk o1 m1 f1 r1 c1 fr1 fin1)).roots = r1 := rfl
          rw [hcc] at this
          exact this
        · have : (collect (GCState.mk o1 m1 f1 r1 c1 fr1 fin1)).classify = c1 := rfl
          rw [hcc] at this
          exact this
        · have : (collect (GCState.mk o1 m1 f1 r1 c1 fr1 fin1)).finalizable = fin1 := rfl
          rw [hcc] at this
          exact this

end GC

namespace GC

/-- The set of objects reachable through the contents of a given object: the
mark loop run with the pointer-like successors of the object as seeds. -/
def reachFromObj (st : GCState) (a : Nat) : Finset Nat :=
  runMark st.objects (succsOf st) (succsOf st a) ∅

/-- Modelled from the spec: the finalization candidates of a collection.
An unreachable finalizable object becomes a candidate only if it is not
reachable through any other unreachable finalizable object — the
finalizer-dependency ordering, under which an object kept reachable only
by the state of an unfinalized object is deferred to a later collection. -/
def candidates (st : GCState) : Finset Nat :=
  st.finalizable.filter fun o =>
    o ∉ markOf st ∧
    ∀ a ∈ st.finalizable, a ≠ o → a ∉ markOf st → o ∉ reachFromObj st a

/-- Claim C7: if unreachable finalizable object A holds a reference to
object B, then B is not a finalization candidate of this collection: B
can be finalized only in the same or a later collection than the one
whose finalizer run disposes of A. -/
theorem finalizer_dependency_ordering (st : GCState) (A B : Nat)
    (hA : A ∈ st.finalizable) (hAun : A ∉ markOf st)
    (hAB : B ∈ reachFromObj st A) (hne : A ≠ B) :
    B ∉ candidates st := by
  intro hB
  simp only [candidates, Finset.mem_filter] at hB
  exact hB.2.2 A hA hne hAun hAB

/-- A small concrete heap for finalization: objects 1 and 2 both carry
finalizers, nothing is reachable from the roots, and object 1 holds the
only reference to object 2. -/
def demoFinHeap : GCState where
  objects := {1, 2}
  marked := ∅
  fields := fun o => if o = 1 then [2] else []
  roots := []
  classify := fun w => if w = 1 ∨ w = 2 then some w else none
  free := ∅
  finalizable := {1, 2}

/-- Witness for C7: on the concrete heap, object 2 is referenced by the
unreachable finalizable object 1 and therefore is not a finalization
candidate. -/
theorem finalizer_dependency_ordering_witness :
    1 ∈ demoFinHeap.finalizable ∧ 1 ∉ markOf demoFinHeap ∧
    2 ∈ reachFromObj demoFinHeap 1 ∧ 1 ≠ 2 ∧
    2 ∉ candidates demoFinHeap :=
  ⟨by decide, by decide, by decide, by decide,
   finalizer_dependency_ordering demoFinHeap 1 2
     (by decide) (by decide) (by decide) (by decide)⟩

end GC

namespace Alloc

/-- Caller-selected initialization mode of an allocation. -/
inductive AllocMode where
  | zeroed
  | uninit
  deriving DecidableEq, Repr

/-- Modelled from the spec: the state of the allocator (`malloc.c`,
`allchblk.c`, `new_hblk.c` are not among the visible sources).
`freeLists` are the per-size-class free lists, `osBlocks` the fresh
chunks the Block Allocator can still obtain from the OS for each class
(empty means the OS refuses further pages), `pendingGarbage` the
unreachable chunks an emergency collection would reclaim for each class,
`inUse` the addresses currently handed out and not since freed, and
`memory` the heap contents. -/
structure AllocState where
  freeLists : Nat → List Nat
  osBlocks : Nat → List Nat
  pendingGarbage : Nat → List Nat
  inUse : Finset Nat
  memory : Nat → Nat

/-- The allocation granule: size classes are multiples of 16 bytes. -/
def granule : Nat := 16

/-- The size class a request is rounded up to: the smallest multiple of
the granule that is at least `size`. -/
def sizeClassOf (size : Nat) : Nat :=
  granule * ((size + granule - 1) / granule)

/-- Chunk contents after handing it to the caller: zero-filled in
`zeroed` mode, untouched in `uninit` mode. -/
def prepare (mem : Nat → Nat) (mode : AllocMode) (a len : Nat) : Nat → Nat :=
  match mode with
  | .zeroed => fun x => if a ≤ x ∧ x < a + len then 0 else mem x
  | .uninit => mem

/-- Replace the list of one size class, leaving the others unchanged. -/
def setList (f : Nat → List Nat) (c : Nat) (l : List Nat) : Nat → List Nat :=
  fun c2 => if c2 = c then l else f c2

/-- Pop the head chunk of the free list of the class, moving it to the in-use
set and preparing its contents. -/
def takeFree (st : AllocState) (c : Nat) (mode : AllocMode) :
    Option (Nat × AllocState) :=
  match st.freeLists c with
  | [] => none
  | a :: rest =>
    some (a, { st with
      freeLists := setList st.freeLists c rest
      inUse := insert a st.inUse
      memory := prepare st.memory mode a c })

/-- Obtain a fresh chunk for the class from the Block Allocator / OS,
moving it to the in-use set and preparing its contents. -/
def takeOS (st : AllocState) (c : Nat) (mode : AllocMode) :
    Option (Nat × AllocState) :=
  match st.osBlocks c with
  | [] => none
  | a :: rest =>
    some (a, { st with
      osBlocks := setList st.osBlocks c rest
      inUse := insert a st.inUse
      memory := prepare st.memory mode a c })

/-- Modelled from the spec: an emergency collection seen from the
allocator: every pending-garbage chunk is swept onto the free list of
its size class. -/
def collectGarbage (st : AllocState) : AllocState :=
  { st with
    freeLists := fun c => st.freeLists c ++ st.pendingGarbage c
    pendingGarbage := fun _ => [] }

/-- Result of one allocation request: the returned address (`none` is
`OutOfMemory`), the new allocator state, and whether an emergency
collection was run. -/
structure AllocOutcome where
  result : Option Nat
  state : AllocState
  collected : Bool

/-- Modelled from the spec: `allocate(size, mode)`.  Round the request up
to a size class and serve it from the free list of the class; on free-list
exhaustion request a fresh chunk from the Block Allocator / OS; if the OS
refuses, run an emergency collection and retry the free list; only if the
request still cannot be satisfied surface `OutOfMemory`. -/
def allocate (st : AllocState) (size : Nat) (mode : AllocMode) : AllocOutcome :=
  let c := sizeClassOf size
  match takeFree st c mode with
  | some (a, st2) => ⟨some a, st2, false⟩
  | none =>
    match takeOS st c mode with
    | some (a, st2) => ⟨some a, st2, false⟩
    | none =>
      let st1 := collectGarbage st
      match takeFree st1 c mode with
      | some (a, st2) => ⟨some a, st2, true⟩
      | none => ⟨none, st1, true⟩

/-- Chunk-ownership invariant: no chunk on a free list, obtainable from
the OS, or pending sweep is simultaneously in use. -/
def WF (st : AllocState) : Prop :=
  (∀ c a, a ∈ st.freeLists c → a ∉ st.inUse) ∧
  (∀ c a, a ∈ st.osBlocks c → a ∉ st.inUse) ∧
  (∀ c a, a ∈ st.pendingGarbage c → a ∉ st.inUse)

theorem size_le_sizeClassOf (size : Nat) : size ≤ sizeClassOf size := by
  simp only [sizeClassOf, granule]
  omega

theorem takeFree_spec (st : AllocState) (c : Nat) (mode : AllocMode)
    (a : Nat) (st2 : AllocState) (h : takeFree st c mode = some (a, st2)) :
    a ∈ st.freeLists c ∧ st2.inUse = insert a st.inUse ∧
    st2.memory = prepare st.memory mode a c := by
  rcases hfl : st.freeLists c with _ | ⟨x, rest⟩
  · simp [takeFree, hfl] at h
  · simp only [takeFree, hfl, Option.some.injEq, Prod.mk.injEq] at h
    obtain ⟨rfl, rfl⟩ := h
    exact ⟨by simp [hfl], rfl, rfl⟩

theorem takeOS_spec (st : AllocState) (c : Nat) (mode : AllocMode)
    (a : Nat) (st2 : AllocState) (h : takeOS st c mode = some (a, st2)) :
    a ∈ st.osBlocks c ∧ st2.inUse = insert a st.inUse ∧
    st2.memory = prepare st.memory mode a c := by
  rcases hfl : st.osBlocks c with _ | ⟨x, rest⟩
  · simp [takeOS, hfl] at h
  · simp only [takeOS, hfl, Option.some.injEq, Prod.mk.injEq] at h
    obtain ⟨rfl, rfl⟩ := h
    exact ⟨by simp [hfl], rfl, rfl⟩

theorem takeFree_none_iff (st : AllocState) (c : Nat) (mode : AllocMode) :
    takeFree st c mode = none ↔ st.freeLists c = [] := by
  rcases hfl : st.freeLists c with _ | ⟨x, rest⟩
  · simp [takeFree, hfl]
  · simp [takeFree, hfl]

theorem takeOS_none_iff (st : AllocState) (c : Nat) (mode : AllocMode) :
    takeOS st c mode = none ↔ st.osBlocks c = [] := by
  rcases hfl : st.osBlocks c with _ | ⟨x, rest⟩
  · simp [takeOS, hfl]
  · simp [takeOS, hfl]

theorem prepare_zeroed (mem : Nat → Nat) (a len x : Nat)
    (h1 : a ≤ x) (h2 : x < a + len) :
    prepare mem .zeroed a len x = 0 := by
  simp [prepare, h1, h2]

end Alloc

namespace Alloc

/-- Claim C4: a successful `allocate(size, mode)` returns the address of a
chunk of a size class of at least `size` bytes, zero-filled over the
whole chunk in `zeroed` mode and untouched in `uninit` mode, and the
address is never one already in use; the address becomes in-use. -/
theorem allocate_contract (st : AllocState) (size : Nat) (mode : AllocMode)
    (a : Nat) (hwf : WF st) (h : (allocate st size mode).result = some a) :
    size ≤ sizeClassOf size ∧
    a ∉ st.inUse ∧
    (allocate st size mode).state.inUse = insert a st.inUse ∧
    (mode = .zeroed → ∀ x, a ≤ x → x < a + sizeClassOf size →
      (allocate st size mode).state.memory x = 0) ∧
    (mode = .uninit → (allocate st size mode).state.memory = st.memory) := by
  rcases htf : takeFree st (sizeClassOf size) mode with _ | ⟨a2, st2⟩
  · rcases hto : takeOS st (sizeClassOf size) mode with _ | ⟨a2, st2⟩
    · rcases htf2 : takeFree (collectGarbage st) (sizeClassOf size) mode
        with _ | ⟨a2, st2⟩
      · simp [allocate, htf, hto, htf2] at h
      · simp only [allocate, htf, hto, htf2, Option.some.injEq] at h ⊢
        subst a2
        obtain ⟨hmem, hinuse, hmemory⟩ :=
          takeFree_spec (collectGarbage st) (sizeClassOf size) mode a st2 htf2
        have hnotuse : a ∉ st.inUse := by
          have : a ∈ st.freeLists (sizeClassOf size)
              ++ st.pendingGarbage (sizeClassOf size) := hmem
          rcases List.mem_append.mp this with hl | hr
          · exact hwf.1 _ a hl
          · exact hwf.2.2 _ a hr
        refine ⟨size_le_sizeClassOf size, hnotuse, hinuse, ?_, ?_⟩
        · intro hm x h1 h2
          rw [hmemory, hm]
          exact prepare_zeroed st.memory a (sizeClassOf size) x h1 h2
        · intro hm
          rw [hmemory, hm]
          rfl
    · simp only [allocate, htf, hto, Option.some.injEq] at h ⊢
      subst a2
      obtain ⟨hmem, hinuse, hmemory⟩ :=
        takeOS_spec st (sizeClassOf size) mode a st2 hto
      refine ⟨size_le_sizeClassOf size, hwf.2.1 _ a hmem, hinuse, ?_, ?_⟩
      · intro hm x h1 h2
        rw [hmemory, hm]
        exact prepare_zeroed st.memory a (sizeClassOf size) x h1 h2
      · intro hm
        rw [hmemory, hm]
        rfl
  · simp only [allocate, htf, Option.some.injEq] at h ⊢
    subst a2
    obtain ⟨hmem, hinuse, hmemory⟩ :=
      takeFree_spec st (sizeClassOf size) mode a st2 htf
    refine ⟨size_le_sizeClassOf size, hwf.1 _ a hmem, hinuse, ?_, ?_⟩
    · intro hm x h1 h2
      rw [hmemory, hm]
      exact prepare_zeroed st.memory a (sizeClassOf size) x h1 h2
    · intro hm
      rw [hmemory, hm]
      rfl

/-- A small concrete allocator state: one free 16-byte chunk at address
100, address 200 in use. -/
def demoAllocState : AllocState where
  freeLists := fun c => if c = 16 then [100] else []
  osBlocks := fun _ => []
  pendingGarbage := fun _ => []
  inUse := {200}
  memory := fun _ => 7

theorem demoAllocState_wf : WF demoAllocState := by
  refine ⟨?_, ?_, ?_⟩ <;> intro c a h
  · by_cases hc : c = 16
    · simp [demoAllocState, hc] at h
      subst h
      decide
    · simp [demoAllocState, hc] at h
  · simp [demoAllocState] at h
  · simp [demoAllocState] at h

/-- Witness for C4: allocating 10 bytes zeroed from the concrete state
returns the free chunk at address 100. -/
theorem allocate_contract_witness :
    (allocate demoAllocState 10 .zeroed).result = some 100 ∧
    (10 ≤ sizeClassOf 10 ∧
     100 ∉ demoAllocState.inUse ∧
     (allocate demoAllocState 10 .zeroed).state.inUse
       = insert 100 demoAllocState.inUse ∧
     (AllocMode.zeroed = .zeroed → ∀ x, 100 ≤ x → x < 100 + sizeClassOf 10 →
       (allocate demoAllocState 10 .zeroed).state.memory x = 0) ∧
     (AllocMode.zeroed = .uninit →
       (allocate demoAllocState 10 .zeroed).state.memory
         = demoAllocState.memory)) :=
  ⟨by decide,
   allocate_contract demoAllocState 10 .zeroed 100 demoAllocState_wf (by decide)⟩

/-- Claim C5: `OutOfMemory` is surfaced only after an emergency
collection: whenever `allocate` returns no address, the OS had refused
further pages for the class, a collection was run during the call, and
even the collection recovered no chunk of the class. -/
theorem oom_only_after_emergency_collection (st : AllocState) (size : Nat)
    (mode : AllocMode) (h : (allocate st size mode).result = none) :
    (allocate st size mode).collected = true ∧
    st.osBlocks (sizeClassOf size) = [] ∧
    (collectGarbage st).freeLists (sizeClassOf size) = [] := by
  rcases htf : takeFree st (sizeClassOf size) mode with _ | ⟨a2, st2⟩
  · rcases hto : takeOS st (sizeClassOf size) mode with _ | ⟨a2, st2⟩
    · rcases htf2 : takeFree (collectGarbage st) (sizeClassOf size) mode
        with _ | ⟨a2, st2⟩
      · refine ⟨?_, (takeOS_none_iff st _ mode).mp hto,
          (takeFree_none_iff (collectGarbage st) _ mode).mp htf2⟩
        simp [allocate, htf, hto, htf2]
      · simp [allocate, htf, hto, htf2] at h
    · simp [allocate, htf, hto] at h
  · simp [allocate, htf] at h

/-- A concrete allocator state with nothing available anywhere. -/
def emptyAllocState : AllocState where
  freeLists := fun _ => []
  osBlocks := fun _ => []
  pendingGarbage := fun _ => []
  inUse := ∅
  memory := fun _ => 0

/-- Witness for C5: on the exhausted state, allocation surfaces
`OutOfMemory` and an emergency collection was indeed run first. -/
theorem oom_only_after_emergency_collection_witness :
    (allocate emptyAllocState 5 .uninit).result = none ∧
    ((allocate emptyAllocState 5 .uninit).collected = true ∧
     emptyAllocState.osBlocks (sizeClassOf 5) = [] ∧
     (collectGarbage emptyAllocState).freeLists (sizeClassOf 5) = []) :=
  ⟨by decide,
   oom_only_after_emergency_collection emptyAllocState 5 .uninit (by decide)⟩

end Alloc
